import Mathlib

/-!
Verification of the hierarchy core of `build_app.py` (lexi_build).

The program keeps an in-memory hierarchy: a Python dict mapping node id
(string) to a node record with keys `name`, `type`, `definition`,
`parents`, `children`.  Every creation site of a node record
(`build_hierarchy_from_outline`, `build_hierarchy`, `add_element`, the
new-project root) supplies exactly these five keys.

Embedding choices:
* A spreadsheet / DataFrame cell is `Option String`: `none` models a
  missing (NaN) or non-string cell, `some s` a textual cell.  This is the
  shape the program actually exercises (all cells it stores or compares
  are strings or NaN).
* A Python dict is an association list in insertion order (Python dicts
  preserve insertion order; assignment to an existing key overwrites the
  value in place, assignment to a fresh key appends).  All stores built by
  the program have pairwise distinct keys.
* The Streamlit session state read by `export_to_csv`
  (`st.session_state["hierarchy"]`) is passed explicitly as an
  `Option Store` argument: `none` models the key being absent, `some s`
  the key holding the dict `s`.
* Handlers that can raise (`KeyError`, `IndexError`) return `Option` /
  an explicit result type where the failing branch is `none` / `faulted`.
-/

namespace LexiBuild

/-- A DataFrame cell: `none` is NaN / non-string, `some s` a string cell. -/
abbrev Cell := Option String

/-- A node record: the five keys every creation site of `build_app.py`
supplies (`name`, `type`, `definition`, `parents`, `children`). -/
structure Node where
  name : Cell
  type : Cell
  definition : Cell
  parents : List String
  children : List String
deriving DecidableEq

/-- The hierarchy store: a Python dict `id -> node` in insertion order. -/
abbrev Store := List (String × Node)

/-- Keys of a store are pairwise distinct (invariant of a Python dict). -/
def keysNodup (h : Store) : Prop := (h.map Prod.fst).Nodup

instance (h : Store) : Decidable (keysNodup h) := by
  unfold keysNodup
  infer_instance

/-- Python dict read `h[k]` (first entry with key `k`). -/
def dictGet : Store → String → Option Node
  | [], _ => none
  | e :: t, k => if e.1 = k then some e.2 else dictGet t k

/-- Python dict write `h[k] = v` when `k` is already present: the value is
replaced in place.  (On stores with distinct keys this touches exactly the
one entry with key `k`; when `k` is absent it is a no-op and is never used
that way below.) -/
def dictSet (h : Store) (k : String) (v : Node) : Store :=
  h.map (fun e => if e.1 = k then (e.1, v) else e)

/-- Python dict write `h[k] = v`: overwrite in place when `k` is present,
append when it is fresh. -/
def dictInsert (h : Store) (k : String) (v : Node) : Store :=
  if (dictGet h k).isSome then dictSet h k v else h ++ [(k, v)]

/-- Python `del h[k]`: remove the (unique) entry with key `k`. -/
def dictErase : Store → String → Store
  | [], _ => []
  | e :: t, k => if e.1 = k then t else e :: dictErase t k

/-! ### Identifier generator (`generate_next_id`, build_app.py l.20-31) -/

/-- Character class `[a-zA-Z]` of the regex in `generate_next_id`. -/
def isAsciiLetter (c : Char) : Bool :=
  ('a' ≤ c && c ≤ 'z') || ('A' ≤ c && c ≤ 'Z')

/-- Character class `\d` of the regex (ASCII digits, the only digits the
program's ids use). -/
def isAsciiDigit (c : Char) : Bool := '0' ≤ c && c ≤ '9'

/-- Numeric value of a digit run, as Python `int` of the matched group. -/
def natOfDigits (ds : List Char) : Nat :=
  ds.foldl (fun n c => 10 * n + (c.toNat - '0'.toNat)) 0

/-- Embedding of `re.search(r"([a-zA-Z]+)-(\d+)", eid)`: scan start
positions left to right; at a position starting with a letter take the
maximal letter run, require a `-` and then a nonempty digit run (greedy,
as the regex); on failure retry from the next position.  Returns the two
captured groups `(letters, int(digits))`. -/
def searchPrefNum : List Char → Option (String × Nat)
  | [] => none
  | c :: rest =>
    if isAsciiLetter c then
      match (c :: rest).span isAsciiLetter with
      | (letters, '-' :: rest2) =>
        match rest2.span isAsciiDigit with
        | (d :: ds, _) => some (String.mk letters, natOfDigits (d :: ds))
        | ([], _) => searchPrefNum rest
      | _ => searchPrefNum rest
    else searchPrefNum rest

/-- The `numeric_ids` list of `generate_next_id`: captured `(prefix,
number)` pairs of the ids that match, in dict iteration order. -/
def matchedIds (h : Store) : List (String × Nat) :=
  h.filterMap (fun e => searchPrefNum e.1.data)

/-- Python `max(l, key=lambda x: x[1])`: the first element attaining the
maximal second component (`max` keeps the current element unless a later
one is strictly greater). -/
def firstMaxBySnd (l : List (String × Nat)) : Option (String × Nat) :=
  l.foldl (fun best x =>
    match best with
    | none => some x
    | some b => if x.2 > b.2 then some x else some b) none

/-- `generate_next_id` (build_app.py l.20-31). -/
def generate_next_id (h : Store) : String :=
  match firstMaxBySnd (matchedIds h) with
  | some (p, n) => p ++ "-" ++ toString (n + 1)
  | none => "z-1"

/-! ### Sibling query (`get_siblings`, build_app.py l.112-118) -/

/-- Python `set.add`-style insertion into a duplicate-free list. -/
def setInsert (s : List String) (x : String) : List String :=
  if x ∈ s then s else s ++ [x]

/-- Python `set.update(xs)`. -/
def setUpdate (s : List String) (xs : List String) : List String :=
  xs.foldl setInsert s

/-- The loop of `get_siblings`: `siblings.update(hierarchy[parent_id]["children"])`
for each parent id.  The unguarded `hierarchy[parent_id]` raises `KeyError`
when a parent id is absent from the store; that fault is `none`. -/
def gatherSiblings (h : Store) : List String → List String → Option (List String)
  | [], s => some s
  | pid :: ps, s =>
    match dictGet h pid with
    | none => none
    | some p => gatherSiblings h ps (setUpdate s p.children)

/-- `get_siblings` (build_app.py l.112-118): union of the children lists of
all parents as a Python set, then `discard(element_id)`, returned as a
list.  (The file returns `list(siblings)` in unspecified set order; the
embedding fixes insertion order, which is sound for the set-semantics
claims.)  `none` models a `KeyError`. -/
def get_siblings (h : Store) (element_id : String) : Option (List String) :=
  match dictGet h element_id with
  | none => none
  | some el =>
    match gatherSiblings h el.parents [] with
    | none => none
    | some s => some (s.filter (fun x => x ≠ element_id))

/-! ### Mutations (`add_element` l.120-132, edit handler l.357-371,
delete handler l.372-387) -/

/-- `add_element` (build_app.py l.120-132).  `none` models the duplicate-id
branch (`st.warning` then `return`, the store untouched).  The parent link
is attempted only after the insertion, exactly as in the source, and is
silently skipped when `parent_id` is falsy (`""`) or not in the dict. -/
def add_element (h : Store) (new_id name type_ definition parent_id : String) :
    Option Store :=
  if (dictGet h new_id).isSome then none
  else
    let h1 := dictInsert h new_id
      { name := some name, type := some type_, definition := some definition,
        parents := if parent_id ≠ "" then [parent_id] else [],
        children := [] }
    if parent_id ≠ "" then
      match dictGet h1 parent_id with
      | some p => some (dictSet h1 parent_id { p with children := p.children ++ [new_id] })
      | none => some h1
    else some h1

/-- The edit handler (build_app.py l.357-371): sets `name` unconditionally
and `definition` only when the node's type equals the entry label.
`none` models the `KeyError` on an absent id. -/
def editNode (h : Store) (current_id new_name new_def : String) : Option Store :=
  match dictGet h current_id with
  | none => none
  | some node =>
    some (dictSet h current_id
      { node with
        name := some new_name
        definition := if node.type = some "مدخل" then some new_def else node.definition })

/-- Python `el.get("parent")` in the delete handler (build_app.py l.373).
Node records are created with exactly the keys `name`, `type`,
`definition`, `parents`, `children`, and no site ever writes a `"parent"`
key, so this `dict.get` always misses and yields `None`. -/
def nodeGetParentKey (_el : Node) : Option String := none

/-- Python `None == s` for a string `s` is `False`; `some t == s` compares
the strings. -/
def pyOptStrEq : Option String → String → Bool
  | some t, s => t = s
  | none, _ => false

/-- The `has_children` computation of the delete handler (build_app.py
l.373): `any(el.get("parent") == current_id for el in hierarchy.values())`. -/
def has_children (h : Store) (current_id : String) : Bool :=
  h.any (fun e => pyOptStrEq (nodeGetParentKey e.2) current_id)

/-- Result of the delete handler: `rejected` is the warning branch (store
untouched), `faulted` an uncaught `KeyError`/`IndexError` (store untouched,
Streamlit shows an error), `ok h f` the successful branch with the new
store `h` and the new `current_id` focus `f`. -/
inductive DelResult where
  | rejected : DelResult
  | faulted : DelResult
  | ok : Store → String → DelResult
deriving DecidableEq

/-- The delete handler (build_app.py l.372-387): guarded by
`has_children`; reads `parents[0]` (an `IndexError` on a root); removes
`current_id` from that parent's `children` when the parent resolves and
the id is present in the list; deletes the node; focuses the parent. -/
def deleteNode (h : Store) (current_id : String) : DelResult :=
  if has_children h current_id then .rejected
  else
    match dictGet h current_id with
    | none => .faulted
    | some node =>
      match node.parents with
      | [] => .faulted
      | parent_id :: _ =>
        let h1 :=
          match dictGet h parent_id with
          | some p => dictSet h parent_id { p with children := p.children.erase current_id }
          | none => h
        .ok (dictErase h1 current_id) parent_id

/-! ### The children-linking pass shared by both parsers
(build_app.py l.85-88 and l.106-109). -/

/-- One step `hierarchy[pid]["children"].append(eid)`, guarded by
`if pid in hierarchy` (dangling parent references are skipped). -/
def linkOne (acc : Store) (eid pid : String) : Store :=
  match dictGet acc pid with
  | some p => dictSet acc pid { p with children := p.children ++ [eid] }
  | none => acc

/-- The inner loop `for pid in data["parents"]` of the linking pass.  The
pass only ever rewrites `children` lists, so reading the parents list from
the pre-pass snapshot is exactly the source's in-place iteration. -/
def linkEntry (acc : Store) (e : String × Node) : Store :=
  e.2.parents.foldl (fun a pid => linkOne a e.1 pid) acc

/-- The full second pass `for eid, data in hierarchy.items(): ...`. -/
def linkChildren (h : Store) : Store :=
  h.foldl linkEntry h

/-! ### Relational parser (`build_hierarchy`, build_app.py l.92-110) -/

/-- Column label `"الرقم التعريفي"` (identifier). -/
def ID_COL : String := "الرقم التعريفي"

/-- Column label `"المدخل"` (name). -/
def NAME_COL : String := "المدخل"

/-- Column label `"النوع"` (type). -/
def TYPE_COL : String := "النوع"

/-- Column label `"الشرح"` (definition). -/
def DEF_COL : String := "الشرح"

/-- The parent-column name prefix `"علاقة جزء من كل"` of the
`col.startswith(...)` test. -/
def PARENT_PRE : String := "علاقة جزء من كل"

/-- Python `str.startswith` on the underlying character sequences. -/
def isPre : List Char → List Char → Bool
  | [], _ => true
  | _ :: _, [] => false
  | a :: as, b :: bs => a = b && isPre as bs

/-- A flat table as pandas hands it to the program: a list of column
labels and one cell list per row, positionally aligned with the labels. -/
structure RelTable where
  cols : List String
  rows : List (List Cell)
deriving DecidableEq

/-- Position of a column label (pandas label lookup; labels are distinct
in any real DataFrame). -/
def colIdxOf : List String → String → Option Nat
  | [], _ => none
  | x :: xs, c => if x = c then some 0 else (colIdxOf xs c).map (· + 1)

/-- Python `row[c]` for a present column label; `none` also stands for the
NaN a real frame would carry in an absent position. -/
def cellAt (cols : List String) (row : List Cell) (c : String) : Cell :=
  match colIdxOf cols c with
  | some i => row.getD i none
  | none => none

/-- Python `row.get(c, d)`: the cell when the column exists (even if NaN),
the default when the column label is absent. -/
def rowGetCell (cols : List String) (row : List Cell) (c : String) (d : Cell) : Cell :=
  match colIdxOf cols c with
  | some i => row.getD i none
  | none => d

/-- Python `str(cell)` as applied by `build_hierarchy`: the string itself
for a textual cell, `"nan"` for a missing one (Python `str(float("nan"))`). -/
def strCell : Cell → String
  | some s => s
  | none => "nan"

/-- The comprehension
`[str(row[col]) for col in df.columns if col.startswith("علاقة جزء من كل") and pd.notna(row[col])]`:
the non-missing cells of the parent-reference columns, in column order. -/
def parentsOfRow (cols : List String) (row : List Cell) : List String :=
  (cols.zip row).filterMap (fun p => if isPre PARENT_PRE.data p.1.data then p.2 else none)

/-- The node record `build_hierarchy` stores for one row
(build_app.py l.97-103). -/
def nodeOfRow (cols : List String) (row : List Cell) : Node :=
  { name := cellAt cols row NAME_COL
    type := cellAt cols row TYPE_COL
    definition := rowGetCell cols row DEF_COL (some "")
    parents := parentsOfRow cols row
    children := [] }

/-- The first pass of `build_hierarchy`: one dict entry per row, keyed by
`str(row["الرقم التعريفي"])`. -/
def firstPass (T : RelTable) : Store :=
  T.rows.foldl
    (fun acc row => dictInsert acc (strCell (cellAt T.cols row ID_COL)) (nodeOfRow T.cols row))
    []

/-- `build_hierarchy` (build_app.py l.92-110).  Accessing
`row["الرقم التعريفي"]` / `row["المدخل"]` / `row["النوع"]` raises `KeyError`
when the label is absent — but only if there is at least one row to
iterate; that fault (the trigger of the caller's outline fallback) is
`none`. -/
def build_hierarchy (T : RelTable) : Option Store :=
  if T.rows.isEmpty then some []
  else if ID_COL ∈ T.cols ∧ NAME_COL ∈ T.cols ∧ TYPE_COL ∈ T.cols then
    some (linkChildren (firstPass T))
  else none

/-! ### Outline parser (`build_hierarchy_from_outline`, build_app.py l.37-90) -/

/-- Python `str.strip()` (no argument): drop leading and trailing
whitespace.  Implemented structurally on the character list so that it
evaluates by kernel reduction. -/
def pyStrip (s : String) : String :=
  ⟨((s.data.dropWhile Char.isWhitespace).reverse.dropWhile Char.isWhitespace).reverse⟩

/-- The fixed depth-to-type lookup `type_map` with its `"غير معروف"`
fallback (build_app.py l.42-47, l.70). -/
def typeOfCol : Nat → String
  | 0 => "باب رئيس"
  | 1 => "فصل"
  | 2 => "موضوع"
  | 3 => "مدخل"
  | _ => "غير معروف"

/-- The parent scan `for i in reversed(range(col_idx))` over the
`node_stack`: the most recent node at the nearest strictly shallower
column, if any (build_app.py l.63-67). -/
def findOutlineParent (stack : Nat → Option String) : Nat → List String
  | 0 => []
  | i + 1 =>
    match stack i with
    | some pid => [pid]
    | none => findOutlineParent stack i

/-- Parser state: the hierarchy built so far, the shared `id_counter`, and
the `node_stack` of the last node id seen at each column. -/
abbrev OutlineState := Store × Nat × (Nat → Option String)

/-- One cell of the outline scan (build_app.py l.50-82).  A cell counts
only if it is a non-NaN string whose strip is nonempty; the definition is
the stripped next cell of the same row when that cell is a string. -/
def outlineCellStep (row : List Cell) (st : OutlineState) (ci : Nat × Cell) : OutlineState :=
  let (h, counter, stack) := st
  let (col_idx, cell) := ci
  match cell with
  | none => st
  | some s =>
    if (pyStrip s).length > 0 then
      let node_name := pyStrip s
      let definition :=
        match row.getD (col_idx + 1) none with
        | some t => pyStrip t
        | none => ""
      let node_id := "N" ++ toString counter
      let parents := findOutlineParent stack col_idx
      let node_type := typeOfCol col_idx
      let h' := dictInsert h node_id
        { name := some node_name, type := some node_type,
          definition := some definition, parents := parents, children := [] }
      (h', counter + 1, fun j => if j = col_idx then some node_id else stack j)
    else st

/-- One row of the outline scan: `for col_idx, cell in enumerate(row)`. -/
def outlineRowStep (st : OutlineState) (row : List Cell) : OutlineState :=
  row.enum.foldl (outlineCellStep row) st

/-- `build_hierarchy_from_outline` (build_app.py l.37-90): the row scan
from the empty dict, counter 1 and empty `node_stack`, then the same
children-linking pass as the relational parser. -/
def build_hierarchy_from_outline (rows : List (List Cell)) : Store :=
  let st := rows.foldl outlineRowStep ([], 1, fun _ => none)
  linkChildren st.1

/-! ### Exporter (`export_to_csv`, build_app.py l.134-160) -/

/-- Fold computing `max(len(data["parents"]) for data in s.values())`
(equal to the Python `max` for every nonempty store, and `0` on the empty
one, where the caller's truthiness guard yields `0` anyway). -/
def maxParents (s : Store) : Nat :=
  s.foldl (fun a e => Nat.max a e.2.parents.length) 0

/-- The `max_parents` computation of `export_to_csv` (build_app.py
l.136-138): read from the *session state* store — `0` when the session has
no `"hierarchy"` key or holds a falsy (empty) dict. -/
def sessionMaxParents : Option Store → Nat
  | none => 0
  | some s => maxParents s

/-- The f-string `f"علاقة جزء من كل {i+1}"`. -/
def parentColName (i : Nat) : String := "علاقة جزء من كل " ++ toString (i + 1)

/-- `base_cols` (build_app.py l.142). -/
def BASE_COLS : List String := [ID_COL, NAME_COL, DEF_COL, TYPE_COL]

/-- The row built for one store entry (build_app.py l.145-158): the four
base cells, then one cell per parent-reference column — `parents[i]` for
`i < len(parents)` and the `None` the columns were initialised with
otherwise.  The cells are listed in `final_cols` order, which is how
`pd.DataFrame(rows, columns=final_cols)` lays the dicts out. -/
def exportRow (max_parents : Nat) (e : String × Node) : List Cell :=
  [some e.1, e.2.name, e.2.definition, e.2.type] ++
    (List.range max_parents).map (fun i => e.2.parents.get? i)

/-- `export_to_csv` (build_app.py l.134-160).  `session` is the ambient
`st.session_state` read by the `max_parents` computation; the rows are
built from the `hierarchy` argument. -/
def export_to_csv (hierarchy : Store) (session : Option Store) : RelTable :=
  let max_parents := sessionMaxParents session
  let all_parent_cols := (List.range max_parents).map parentColName
  let final_cols := BASE_COLS ++ all_parent_cols.filter (fun c => decide (c ∉ BASE_COLS))
  { cols := final_cols
    rows := hierarchy.map (exportRow max_parents) }

/-! ### The inverse-link invariant (spec §3, §8) -/

/-- The inverse-link invariant: for every pair of entries both present in
the store, the parent id appears in the child's `parents` exactly when the
child's id appears in the parent's `children`. -/
def InvLink (h : Store) : Prop :=
  ∀ c ∈ h, ∀ p ∈ h, (p.1 ∈ c.2.parents ↔ c.1 ∈ p.2.children)

instance (h : Store) : Decidable (InvLink h) := by
  unfold InvLink
  infer_instance

/-! ## Dictionary lemmas -/

theorem dictGet_dictSet (h : Store) (k : String) (v : Node) (k' : String) :
    dictGet (dictSet h k v) k' = (dictGet h k').map (fun old => if k' = k then v else old) := by
  induction h with
  | nil => rfl
  | cons e t ih =>
    simp only [dictSet, List.map_cons] at ih ⊢
    by_cases hek' : e.1 = k'
    · by_cases hek : e.1 = k
      · have hk'k : k' = k := hek'.symm.trans hek
        simp [dictGet, hek, hek', hk'k]
      · have hk'k : ¬ (k' = k) := fun hh => hek (hek'.trans hh)
        simp [dictGet, hek, hek', hk'k]
    · by_cases hek : e.1 = k
      · have hkk' : ¬ (k = k') := fun hh => hek' (hek.trans hh)
        have hk'k : ¬ (k' = k) := fun hh => hkk' hh.symm
        simp [dictGet, hek, hek', ih, hkk', hk'k]
      · simp [dictGet, hek, hek', ih]

theorem keys_dictSet (h : Store) (k : String) (v : Node) :
    (dictSet h k v).map Prod.fst = h.map Prod.fst := by
  induction h with
  | nil => rfl
  | cons e t ih =>
    by_cases hek : e.1 = k
    · simp only [dictSet, List.map_cons] at ih ⊢
      simp [hek, ih, dictSet]
    · simp only [dictSet, List.map_cons] at ih ⊢
      simp [hek, ih, dictSet]

theorem mem_dictSet (h : Store) (k : String) (v : Node) (e' : String × Node) :
    e' ∈ dictSet h k v → ∃ e ∈ h, e' = if e.1 = k then (e.1, v) else e := by
  intro hm
  rcases List.mem_map.mp hm with ⟨e, he, hfe⟩
  exact ⟨e, he, hfe.symm⟩

theorem dictGet_mem {h : Store} {k : String} {v : Node} :
    dictGet h k = some v → (k, v) ∈ h := by
  induction h with
  | nil => intro hh; simp [dictGet] at hh
  | cons e t ih =>
    intro hh
    rcases e with ⟨a, b⟩
    by_cases hek : a = k
    · simp [dictGet, hek] at hh
      rw [← hek, ← hh]
      exact List.mem_cons_self _ _
    · simp [dictGet, hek] at hh
      exact List.mem_cons_of_mem _ (ih hh)

theorem mem_dictGet {h : Store} {k : String} {v : Node}
    (hnd : keysNodup h) (hm : (k, v) ∈ h) : dictGet h k = some v := by
  induction h with
  | nil => simp at hm
  | cons e t ih =>
    rcases List.mem_cons.mp hm with he | ht
    · simp [dictGet, ← he]
    · have hek : e.1 ≠ k := by
        intro hek
        have : k ∈ t.map Prod.fst := List.mem_map.mpr ⟨(k, v), ht, rfl⟩
        have hnd' := (List.nodup_cons.mp hnd).1
        exact hnd' (hek ▸ this)
      have hnd' := (List.nodup_cons.mp hnd).2
      simp [dictGet, hek]
      exact ih hnd' ht

theorem dictGet_isSome_iff {h : Store} {k : String} :
    (dictGet h k).isSome ↔ k ∈ h.map Prod.fst := by
  induction h with
  | nil => simp [dictGet]
  | cons e t ih =>
    by_cases hek : e.1 = k
    · simp [dictGet, hek]
    · simp [dictGet, hek, ih, Ne.symm hek]

theorem dictGet_eq_none_iff {h : Store} {k : String} :
    dictGet h k = none ↔ k ∉ h.map Prod.fst := by
  rw [← dictGet_isSome_iff, Option.not_isSome_iff_eq_none]

theorem isSome_dictGet_of_mem {h : Store} {e : String × Node} (hm : e ∈ h) :
    (dictGet h e.1).isSome :=
  dictGet_isSome_iff.mpr (List.mem_map.mpr ⟨e, hm, rfl⟩)

theorem dictGet_append (h1 h2 : Store) (k : String) :
    dictGet (h1 ++ h2) k =
      match dictGet h1 k with
      | some v => some v
      | none => dictGet h2 k := by
  induction h1 with
  | nil => simp [dictGet]
  | cons e t ih =>
    by_cases hek : e.1 = k
    · simp [dictGet, hek]
    · simp [dictGet, hek, ih]

theorem dictInsert_of_fresh {h : Store} {k : String} {v : Node}
    (hf : dictGet h k = none) : dictInsert h k v = h ++ [(k, v)] := by
  simp [dictInsert, hf]

theorem mem_dictInsert {h : Store} {k : String} {v : Node} {e' : String × Node} :
    e' ∈ dictInsert h k v → e' ∈ h ∨ e' = (k, v) := by
  intro hm
  unfold dictInsert at hm
  split at hm
  · rcases mem_dictSet _ _ _ _ hm with ⟨e, he, hfe⟩
    by_cases hek : e.1 = k
    · right; rw [hfe, if_pos hek, hek]
    · left; rw [hfe, if_neg hek]; exact he
  · rcases List.mem_append.mp hm with he | he
    · exact Or.inl he
    · right; simpa using he

theorem keysNodup_dictInsert {h : Store} (hnd : keysNodup h) (k : String) (v : Node) :
    keysNodup (dictInsert h k v) := by
  unfold keysNodup at hnd ⊢
  unfold dictInsert
  split
  · rw [keys_dictSet]
    exact hnd
  · rename_i hns
    have hk : k ∉ h.map Prod.fst := by
      rw [← dictGet_eq_none_iff]
      exact Option.not_isSome_iff_eq_none.mp hns
    rw [List.map_append, List.nodup_append]
    refine ⟨hnd, List.nodup_singleton _, ?_⟩
    intro a ha hb
    simp at hb
    exact hk (hb ▸ ha)

theorem mem_dictErase {h : Store} {k : String} {e : String × Node} :
    e ∈ dictErase h k → e ∈ h := by
  induction h with
  | nil => simp [dictErase]
  | cons e0 t ih =>
    unfold dictErase
    split
    · intro hm; exact List.mem_cons_of_mem _ hm
    · intro hm
      rcases List.mem_cons.mp hm with he | ht
      · exact he ▸ List.mem_cons_self _ _
      · exact List.mem_cons_of_mem _ (ih ht)

theorem ne_key_of_mem_dictErase {h : Store} {k : String} {e : String × Node}
    (hnd : keysNodup h) (hm : e ∈ dictErase h k) : e.1 ≠ k := by
  induction h with
  | nil => simp [dictErase] at hm
  | cons e0 t ih =>
    rcases List.nodup_cons.mp hnd with ⟨h0, hndt⟩
    unfold dictErase at hm
    split at hm
    · rename_i h0k
      intro hek
      exact h0 (by
        rw [h0k, ← hek]
        exact List.mem_map.mpr ⟨e, hm, rfl⟩)
    · rename_i h0k
      rcases List.mem_cons.mp hm with he | ht
      · rw [he]; exact h0k
      · exact ih hndt ht

theorem dictGet_dictErase_ne {h : Store} {k k' : String} (hne : k' ≠ k) :
    dictGet (dictErase h k) k' = dictGet h k' := by
  induction h with
  | nil => rfl
  | cons e t ih =>
    unfold dictErase
    split
    · rename_i hek
      have : e.1 ≠ k' := by rw [hek]; exact fun hh => hne hh.symm
      simp [dictGet, this]
    · by_cases hek' : e.1 = k'
      · simp [dictGet, hek']
      · simp [dictGet, hek', ih]

theorem dictGet_dictErase_self {h : Store} {k : String} (hnd : keysNodup h) :
    dictGet (dictErase h k) k = none := by
  rw [dictGet_eq_none_iff]
  intro hmem
  rcases List.mem_map.mp hmem with ⟨e, he, hfe⟩
  exact ne_key_of_mem_dictErase hnd he hfe

theorem eq_of_mem_mem_keysNodup {h : Store} {k : String} {v v' : Node}
    (hnd : keysNodup h) (h1 : (k, v) ∈ h) (h2 : (k, v') ∈ h) : v = v' := by
  have := (mem_dictGet hnd h1).symm.trans (mem_dictGet hnd h2)
  exact Option.some.inj this

/-! ## Lemmas about the children-linking pass -/

theorem dictGet_linkOne (acc : Store) (eid pid k : String) :
    dictGet (linkOne acc eid pid) k =
      (dictGet acc k).map
        (fun n => if k = pid then { n with children := n.children ++ [eid] } else n) := by
  unfold linkOne
  cases hp : dictGet acc pid with
  | none =>
    by_cases hk : k = pid
    · rw [hk, hp]; rfl
    · simp [hk]
  | some p =>
    rw [dictGet_dictSet]
    by_cases hk : k = pid
    · rw [hk, hp]
      simp
    · simp [hk]

theorem keys_linkOne (acc : Store) (eid pid : String) :
    (linkOne acc eid pid).map Prod.fst = acc.map Prod.fst := by
  unfold linkOne
  cases dictGet acc pid with
  | none => rfl
  | some p => exact keys_dictSet _ _ _

/-- Effect of the inner loop of the linking pass on one key: the `children`
list of the node at `k` is extended by a block `ext` of copies of `eid`,
nonempty exactly when `k` occurs among the scanned parent ids and resolves. -/
theorem dictGet_linkFold (eid : String) (ps : List String) :
    ∀ (acc : Store) (k : String), ∃ ext : List String,
      dictGet (ps.foldl (fun a pid => linkOne a eid pid) acc) k =
        (dictGet acc k).map (fun n => { n with children := n.children ++ ext }) ∧
      (∀ x ∈ ext, x = eid ∧ k ∈ ps) ∧
      (k ∈ ps → (dictGet acc k).isSome → eid ∈ ext) := by
  induction ps with
  | nil =>
    intro acc k
    refine ⟨[], ?_, ?_, ?_⟩
    · have hid : (fun (n : Node) => { n with children := n.children ++ [] }) = id := by
        funext n; cases n; simp
      rw [hid, Option.map_id]
      rfl
    · simp
    · simp
  | cons p ps' ih =>
    intro acc k
    rcases ih (linkOne acc eid p) k with ⟨ext', hg, hall, hin⟩
    refine ⟨(if k = p then [eid] else []) ++ ext', ?_, ?_, ?_⟩
    · rw [List.foldl_cons, hg, dictGet_linkOne, Option.map_map]
      cases dictGet acc k with
      | none => rfl
      | some n =>
        by_cases hk : k = p
        · simp [hk, Function.comp]
        · simp [hk, Function.comp]
    · intro x hx
      rcases List.mem_append.mp hx with hx1 | hx2
      · by_cases hk : k = p
        · rw [if_pos hk] at hx1
          simp at hx1
          exact ⟨hx1, by rw [hk]; exact List.mem_cons_self _ _⟩
        · rw [if_neg hk] at hx1
          simp at hx1
      · rcases hall x hx2 with ⟨hxe, hkps⟩
        exact ⟨hxe, List.mem_cons_of_mem _ hkps⟩
    · intro hkps hs
      by_cases hk : k = p
      · rw [if_pos hk]
        exact List.mem_append.mpr (Or.inl (List.mem_singleton.mpr rfl))
      · rcases List.mem_cons.mp hkps with hkp | hkps'
        · exact absurd hkp hk
        · have hs' : (dictGet (linkOne acc eid p) k).isSome := by
            rw [dictGet_linkOne, Option.isSome_map']
            exact hs
          exact List.mem_append.mpr (Or.inr (hin hkps' hs'))

theorem keys_linkFold (eid : String) (ps : List String) :
    ∀ acc : Store, (ps.foldl (fun a pid => linkOne a eid pid) acc).map Prod.fst
      = acc.map Prod.fst := by
  induction ps with
  | nil => intro acc; rfl
  | cons p ps' ih =>
    intro acc
    rw [List.foldl_cons, ih, keys_linkOne]

/-- Effect of the whole linking pass over an entry list `es` on one key:
`children` at `k` is extended by the ids of the scanned entries that list
`k` among their parents. -/
theorem dictGet_linkEntries (es : List (String × Node)) :
    ∀ (acc : Store) (k : String), ∃ ext : List String,
      dictGet (es.foldl linkEntry acc) k =
        (dictGet acc k).map (fun n => { n with children := n.children ++ ext }) ∧
      (∀ x ∈ ext, ∃ e ∈ es, x = e.1 ∧ k ∈ e.2.parents) ∧
      (∀ e ∈ es, k ∈ e.2.parents → (dictGet acc k).isSome → e.1 ∈ ext) := by
  induction es with
  | nil =>
    intro acc k
    refine ⟨[], ?_, ?_, ?_⟩
    · have hid : (fun (n : Node) => { n with children := n.children ++ [] }) = id := by
        funext n; cases n; simp
      rw [hid, Option.map_id]
      rfl
    · simp
    · simp
  | cons e es' ih =>
    intro acc k
    rcases dictGet_linkFold e.1 e.2.parents acc k with ⟨ext1, hg1, hall1, hin1⟩
    rcases ih (linkEntry acc e) k with ⟨ext2, hg2, hall2, hin2⟩
    refine ⟨ext1 ++ ext2, ?_, ?_, ?_⟩
    · rw [List.foldl_cons, hg2]
      unfold linkEntry
      rw [hg1, Option.map_map]
      cases dictGet acc k with
      | none => rfl
      | some n => simp [Function.comp]
    · intro x hx
      rcases List.mem_append.mp hx with hx1 | hx2
      · rcases hall1 x hx1 with ⟨hxe, hkps⟩
        exact ⟨e, List.mem_cons_self _ _, hxe, hkps⟩
      · rcases hall2 x hx2 with ⟨e', he', hxe, hkps⟩
        exact ⟨e', List.mem_cons_of_mem _ he', hxe, hkps⟩
    · intro e' he' hkps hs
      rcases List.mem_cons.mp he' with he1 | he2
      · exact List.mem_append.mpr (Or.inl (he1 ▸ hin1 (he1 ▸ hkps) hs))
      · have hs' : (dictGet (linkEntry acc e) k).isSome := by
          unfold linkEntry
          rw [hg1, Option.isSome_map']
          exact hs
        exact List.mem_append.mpr (Or.inr (hin2 e' he2 hkps hs'))

theorem keys_linkEntries (es : List (String × Node)) :
    ∀ acc : Store, (es.foldl linkEntry acc).map Prod.fst = acc.map Prod.fst := by
  induction es with
  | nil => intro acc; rfl
  | cons e es' ih =>
    intro acc
    rw [List.foldl_cons, ih]
    unfold linkEntry
    exact keys_linkFold _ _ _

theorem keys_linkChildren (h : Store) :
    (linkChildren h).map Prod.fst = h.map Prod.fst :=
  keys_linkEntries h h

theorem keysNodup_linkChildren {h : Store} (hnd : keysNodup h) :
    keysNodup (linkChildren h) := by
  unfold keysNodup at hnd ⊢
  rw [keys_linkChildren]
  exact hnd

/-- The linking pass over a store with duplicate-free keys and empty
`children` lists establishes the inverse-link invariant. -/
theorem invLink_linkChildren {h : Store} (hnd : keysNodup h)
    (hch : ∀ e ∈ h, e.2.children = ([] : List String)) : InvLink (linkChildren h) := by
  intro c hc p hp
  have hndl : keysNodup (linkChildren h) := keysNodup_linkChildren hnd
  have hgc : dictGet (linkChildren h) c.1 = some c.2 := by
    have : (c.1, c.2) ∈ linkChildren h := hc
    exact mem_dictGet hndl this
  have hgp : dictGet (linkChildren h) p.1 = some p.2 := by
    have : (p.1, p.2) ∈ linkChildren h := hp
    exact mem_dictGet hndl this
  rcases dictGet_linkEntries h h c.1 with ⟨extC, hgC, _, _⟩
  rcases dictGet_linkEntries h h p.1 with ⟨extP, hgP, hallP, hinP⟩
  unfold linkChildren at hgc hgp
  rw [hgC] at hgc
  rw [hgP] at hgp
  cases hc0 : dictGet h c.1 with
  | none => rw [hc0] at hgc; simp at hgc
  | some c0 =>
    cases hp0 : dictGet h p.1 with
    | none => rw [hp0] at hgp; simp at hgp
    | some p0 =>
      rw [hc0] at hgc
      rw [hp0] at hgp
      have hc2 : c.2 = { c0 with children := c0.children ++ extC } := (Option.some.inj hgc).symm
      have hp2 : p.2 = { p0 with children := p0.children ++ extP } := (Option.some.inj hgp).symm
      have hc0m : (c.1, c0) ∈ h := dictGet_mem hc0
      have hp0m : (p.1, p0) ∈ h := dictGet_mem hp0
      have hc0ch : c0.children = [] := hch _ hc0m
      have hp0ch : p0.children = [] := hch _ hp0m
      rw [hc2, hp2]
      simp only [hp0ch, List.nil_append]
      constructor
      · intro hpar
        exact hinP (c.1, c0) hc0m hpar (by rw [hp0]; rfl)
      · intro hmem
        rcases hallP c.1 hmem with ⟨e, he, hxe, hkps⟩
        have : e.2 = c0 := by
          have h1 : (e.1, e.2) ∈ h := he
          rw [hxe] at hc0m
          exact eq_of_mem_mem_keysNodup hnd h1 hc0m
        rw [← this]
        exact hkps

/-! ## First-pass invariants of the two parsers -/

/-- Folding `dictInsert` steps that only insert childless nodes preserves
key distinctness and all-children-empty, over any list shape. -/
theorem firstPass_inv (T : RelTable) :
    keysNodup (firstPass T) ∧ ∀ e ∈ firstPass T, e.2.children = ([] : List String) := by
  unfold firstPass
  suffices hgen : ∀ (rows : List (List Cell)) (acc : Store),
      keysNodup acc → (∀ e ∈ acc, e.2.children = ([] : List String)) →
      keysNodup (rows.foldl
        (fun acc row => dictInsert acc (strCell (cellAt T.cols row ID_COL)) (nodeOfRow T.cols row)) acc) ∧
      ∀ e ∈ rows.foldl
        (fun acc row => dictInsert acc (strCell (cellAt T.cols row ID_COL)) (nodeOfRow T.cols row)) acc,
        e.2.children = ([] : List String) by
    exact hgen T.rows [] (by simp [keysNodup]) (by simp)
  intro rows
  induction rows with
  | nil => intro acc h1 h2; exact ⟨h1, h2⟩
  | cons r rs ih =>
    intro acc h1 h2
    apply ih
    · exact keysNodup_dictInsert h1 _ _
    · intro e he
      rcases mem_dictInsert he with hin | heq
      · exact h2 e hin
      · rw [heq]; rfl

/-- The relational parser's output satisfies the inverse-link invariant. -/
theorem invLink_build_hierarchy {T : RelTable} {H : Store}
    (hb : build_hierarchy T = some H) : InvLink H := by
  unfold build_hierarchy at hb
  split at hb
  · rcases Option.some.inj hb with rfl
    intro c hc
    simp at hc
  · split at hb
    · rcases Option.some.inj hb with rfl
      exact invLink_linkChildren (firstPass_inv T).1 (firstPass_inv T).2
    · exact absurd hb (by simp)

/-- A state invariant of the outline scan: distinct keys and all-empty
`children` lists, preserved by every cell step. -/
theorem outline_scan_inv (rows : List (List Cell)) :
    ∀ st : OutlineState, keysNodup st.1 → (∀ e ∈ st.1, e.2.children = ([] : List String)) →
      keysNodup (rows.foldl outlineRowStep st).1 ∧
      ∀ e ∈ (rows.foldl outlineRowStep st).1, e.2.children = ([] : List String) := by
  have hcell : ∀ (row : List Cell) (l : List (Nat × Cell)) (st : OutlineState),
      keysNodup st.1 → (∀ e ∈ st.1, e.2.children = ([] : List String)) →
      keysNodup (l.foldl (outlineCellStep row) st).1 ∧
      ∀ e ∈ (l.foldl (outlineCellStep row) st).1, e.2.children = ([] : List String) := by
    intro row l
    induction l with
    | nil => intro st h1 h2; exact ⟨h1, h2⟩
    | cons ci l' ih =>
      intro st h1 h2
      apply ih
      · unfold outlineCellStep
        rcases st with ⟨h, counter, stack⟩
        rcases ci with ⟨col_idx, cell⟩
        cases cell with
        | none => exact h1
        | some s =>
          by_cases hs : (pyStrip s).length > 0
          · simpa [hs] using keysNodup_dictInsert h1 _ _
          · simpa [hs] using h1
      · unfold outlineCellStep
        rcases st with ⟨h, counter, stack⟩
        rcases ci with ⟨col_idx, cell⟩
        cases cell with
        | none => exact h2
        | some s =>
          by_cases hs : (pyStrip s).length > 0
          · simp only [hs, if_pos]
            intro e he
            rcases mem_dictInsert he with hin | heq
            · exact h2 e hin
            · rw [heq]
          · simpa [hs] using h2
  induction rows with
  | nil => intro st h1 h2; exact ⟨h1, h2⟩
  | cons r rs ih =>
    intro st h1 h2
    rcases hcell r r.enum st h1 h2 with ⟨h1', h2'⟩
    exact ih _ h1' h2'

/-- The outline parser's output satisfies the inverse-link invariant. -/
theorem invLink_build_hierarchy_from_outline (rows : List (List Cell)) :
    InvLink (build_hierarchy_from_outline rows) := by
  unfold build_hierarchy_from_outline
  rcases outline_scan_inv rows ([], 1, fun _ => none) (by simp [keysNodup]) (by simp)
    with ⟨h1, h2⟩
  exact invLink_linkChildren h1 h2

/-! ## Mutation lemmas -/

/-- The delete guard is dead: no node record ever carries a `"parent"` key,
so `el.get("parent") == current_id` is `None == current_id`, i.e. `False`,
for every entry. -/
theorem has_children_false (h : Store) (cid : String) : has_children h cid = false := by
  simp [has_children, nodeGetParentKey, pyOptStrEq]

theorem keysNodup_dictSet {h : Store} (hnd : keysNodup h) (k : String) (v : Node) :
    keysNodup (dictSet h k v) := by
  unfold keysNodup at hnd ⊢
  rw [keys_dictSet]
  exact hnd

theorem dictErase_sublist (h : Store) (k : String) : (dictErase h k).Sublist h := by
  induction h with
  | nil => simp [dictErase]
  | cons e t ih =>
    unfold dictErase
    split
    · exact List.sublist_cons_self _ _
    · exact ih.cons₂ e

theorem keysNodup_dictErase {h : Store} (hnd : keysNodup h) (k : String) :
    keysNodup (dictErase h k) :=
  ((dictErase_sublist h k).map Prod.fst).nodup hnd

/-- The inverse-link invariant phrased through dictionary reads, the form
in which the mutation proofs proceed. -/
def InvLinkGet (h : Store) : Prop :=
  ∀ k1 k2 n1 n2, dictGet h k1 = some n1 → dictGet h k2 = some n2 →
    (k2 ∈ n1.parents ↔ k1 ∈ n2.children)

theorem invLink_iff_get {h : Store} (hnd : keysNodup h) : InvLink h ↔ InvLinkGet h := by
  constructor
  · intro hI k1 k2 n1 n2 hg1 hg2
    exact hI (k1, n1) (dictGet_mem hg1) (k2, n2) (dictGet_mem hg2)
  · intro hG c hc p hp
    exact hG c.1 p.1 c.2 p.2 (mem_dictGet hnd hc) (mem_dictGet hnd hp)

/-- The edit handler touches only `name` and `definition`, so it preserves
the inverse-link invariant. -/
theorem invLink_editNode {h h' : Store} {cid nn nd : String} (hnd : keysNodup h)
    (he : editNode h cid nn nd = some h') (hI : InvLink h) : InvLink h' := by
  unfold editNode at he
  split at he
  · exact absurd he (by simp)
  · rename_i node hg
    rcases Option.some.inj he with rfl
    rw [invLink_iff_get (keysNodup_dictSet hnd _ _)]
    rw [invLink_iff_get hnd] at hI
    intro k1 k2 n1 n2 g1 g2
    rw [dictGet_dictSet] at g1 g2
    rcases Option.map_eq_some'.mp g1 with ⟨m1, hm1, hn1⟩
    rcases Option.map_eq_some'.mp g2 with ⟨m2, hm2, hn2⟩
    have key1 : n1.parents = m1.parents ∧ n1.children = m1.children := by
      rw [← hn1]
      by_cases hk : k1 = cid
      · have hm : m1 = node := by
          rw [hk, hg] at hm1
          exact (Option.some.inj hm1).symm
        rw [if_pos hk, hm]
        exact ⟨rfl, rfl⟩
      · rw [if_neg hk]
        exact ⟨rfl, rfl⟩
    have key2 : n2.parents = m2.parents ∧ n2.children = m2.children := by
      rw [← hn2]
      by_cases hk : k2 = cid
      · have hm : m2 = node := by
          rw [hk, hg] at hm2
          exact (Option.some.inj hm2).symm
        rw [if_pos hk, hm]
        exact ⟨rfl, rfl⟩
      · rw [if_neg hk]
        exact ⟨rfl, rfl⟩
    rw [key1.1, key2.2]
    exact hI k1 k2 m1 m2 hm1 hm2

/-- The delete handler removes one node and erases its id from one
`children` list, so it preserves the inverse-link invariant. -/
theorem invLink_deleteNode {h h' : Store} {cid f : String} (hnd : keysNodup h)
    (hd : deleteNode h cid = .ok h' f) (hI : InvLink h) : InvLink h' := by
  unfold deleteNode at hd
  rw [has_children_false] at hd
  simp only [Bool.false_eq_true, if_false] at hd
  split at hd
  · exact absurd hd (by simp)
  · rename_i node hg
    split at hd
    · exact absurd hd (by simp)
    · rename_i pid ps hps
      simp only [DelResult.ok.injEq] at hd
      rcases hd with ⟨hh', _⟩
      have hmain : ∀ h1 : Store, keysNodup h1 →
          (∀ x ∈ h1, ∃ x0 ∈ h, x.1 = x0.1 ∧ x.2.parents = x0.2.parents ∧
            (x.2.children = x0.2.children ∨ x.2.children = x0.2.children.erase cid)) →
          InvLink (dictErase h1 cid) := by
        intro h1 hnd1 horig
        intro c hc p hp
        have hcm : c ∈ h1 := mem_dictErase hc
        have hpm : p ∈ h1 := mem_dictErase hp
        have hcne : c.1 ≠ cid := ne_key_of_mem_dictErase hnd1 hc
        rcases horig c hcm with ⟨c0, hc0, hck, hcp, _⟩
        rcases horig p hpm with ⟨p0, hp0, hpk, _, hpc⟩
        have base := hI c0 hc0 p0 hp0
        rw [hcp, hpk, hck]
        rcases hpc with hsame | herase
        · rw [hsame]; exact base
        · rw [herase, List.mem_erase_of_ne (hck ▸ hcne)]
          exact base
      rw [← hh']
      split
      · rename_i p hgp
        apply hmain _ (keysNodup_dictSet hnd _ _)
        intro x hx
        rcases mem_dictSet _ _ _ _ hx with ⟨x0, hx0, hfx⟩
        by_cases hxk : x0.1 = pid
        · rw [hfx, if_pos hxk]
          have hx02 : x0.2 = p := by
            have := mem_dictGet hnd (show (x0.1, x0.2) ∈ h from hx0)
            rw [hxk, hgp] at this
            exact (Option.some.inj this).symm
          exact ⟨x0, hx0, rfl, by rw [hx02], Or.inr (by rw [hx02])⟩
        · rw [hfx, if_neg hxk]
          exact ⟨x0, hx0, rfl, rfl, Or.inl rfl⟩
      · apply hmain h hnd
        intro x hx
        exact ⟨x, hx, rfl, rfl, Or.inl rfl⟩

theorem dictGet_append_single {h : Store} {new_id : String} {node0 : Node}
    (hg0 : dictGet h new_id = none) (k : String) :
    dictGet (h ++ [(new_id, node0)]) k = if k = new_id then some node0 else dictGet h k := by
  rw [dictGet_append]
  by_cases hk : k = new_id
  · subst hk
    rw [hg0]
    simp [dictGet]
  · have hnk : ¬ (new_id = k) := fun hh => hk hh.symm
    cases hgk : dictGet h k with
    | none => simp [dictGet, hnk, hk]
    | some v => simp [hk]

theorem keysNodup_append_single {h : Store} {new_id : String} {node0 : Node}
    (hnd : keysNodup h) (hg0 : dictGet h new_id = none) :
    keysNodup (h ++ [(new_id, node0)]) := by
  rw [← dictInsert_of_fresh hg0]
  exact keysNodup_dictInsert hnd _ _

/-- Appending a fresh childless node all of whose parent references dangle
preserves the inverse-link invariant, provided the fresh id does not occur
in any existing list. -/
theorem invLink_append_fresh {h : Store} {new_id : String} {node0 : Node}
    (_hg0 : dictGet h new_id = none)
    (hfresh : ∀ e ∈ h, new_id ∉ e.2.parents ∧ new_id ∉ e.2.children)
    (hch : node0.children = ([] : List String))
    (hpar : ∀ q ∈ node0.parents, dictGet h q = none ∧ q ≠ new_id)
    (hI : InvLink h) : InvLink (h ++ [(new_id, node0)]) := by
  intro c hc p hp
  rcases List.mem_append.mp hc with hch' | hcn
  · rcases List.mem_append.mp hp with hph | hpn
    · exact hI c hch' p hph
    · have hpn' : p = (new_id, node0) := by simpa using hpn
      rw [hpn']
      constructor
      · intro hmem
        exact absurd hmem (hfresh c hch').1
      · intro hmem
        rw [hch] at hmem
        simp at hmem
  · have hcn' : c = (new_id, node0) := by simpa using hcn
    rw [hcn']
    rcases List.mem_append.mp hp with hph | hpn
    · constructor
      · intro hmem
        rcases hpar p.1 hmem with ⟨hq, _⟩
        have := isSome_dictGet_of_mem hph
        rw [hq] at this
        simp at this
      · intro hmem
        exact absurd hmem (hfresh p hph).2
    · have hpn' : p = (new_id, node0) := by simpa using hpn
      rw [hpn']
      constructor
      · intro hmem
        exact absurd (hpar new_id hmem).2 (by simp)
      · intro hmem
        rw [hch] at hmem
        simp at hmem

/-- Appending a fresh childless node whose sole parent reference is `pid`
and then running the `linkOne` step for it preserves the invariant — this
is exactly the successful path of `add_element` with a parent id. -/
theorem invLink_linkOne_append {h : Store} {new_id pid : String} {node0 : Node}
    (hnd : keysNodup h) (hg0 : dictGet h new_id = none)
    (hfresh : ∀ e ∈ h, new_id ∉ e.2.parents ∧ new_id ∉ e.2.children)
    (hch : node0.children = ([] : List String)) (hpar : node0.parents = [pid])
    (hI : InvLink h) :
    InvLink (linkOne (h ++ [(new_id, node0)]) new_id pid) := by
  have hnd1 : keysNodup (h ++ [(new_id, node0)]) := keysNodup_append_single hnd hg0
  have hndL : keysNodup (linkOne (h ++ [(new_id, node0)]) new_id pid) := by
    unfold keysNodup at hnd1 ⊢
    rw [keys_linkOne]
    exact hnd1
  have hIg : InvLinkGet h := (invLink_iff_get hnd).mp hI
  rw [invLink_iff_get hndL]
  intro k1 k2 n1 n2 g1 g2
  rw [dictGet_linkOne, dictGet_append_single hg0] at g1 g2
  rcases Option.map_eq_some'.mp g1 with ⟨m1, hm1, hn1⟩
  rcases Option.map_eq_some'.mp g2 with ⟨m2, hm2, hn2⟩
  have hpar1 : n1.parents = m1.parents := by
    rw [← hn1]
    by_cases hk : k1 = pid <;> simp [hk]
  have hch2 : ∀ x, x ∈ n2.children ↔ x ∈ m2.children ∨ (k2 = pid ∧ x = new_id) := by
    intro x
    rw [← hn2]
    by_cases hk : k2 = pid <;> simp [hk]
  rw [hpar1]
  have hgoal2 : (k1 ∈ n2.children) = (k1 ∈ m2.children ∨ (k2 = pid ∧ k1 = new_id)) :=
    propext (hch2 k1)
  rw [hgoal2]
  by_cases hk1 : k1 = new_id
  · rw [if_pos hk1] at hm1
    rcases Option.some.inj hm1 with rfl
    rw [hpar]
    by_cases hk2 : k2 = new_id
    · rw [if_pos hk2] at hm2
      rcases Option.some.inj hm2 with rfl
      rw [hch]
      simp [hk1]
    · rw [if_neg hk2] at hm2
      have hm2h : (k2, m2) ∈ h := dictGet_mem hm2
      have hnotch : new_id ∉ m2.children := (hfresh _ hm2h).2
      simp [hk1, hnotch]
  · rw [if_neg hk1] at hm1
    have hm1h : (k1, m1) ∈ h := dictGet_mem hm1
    by_cases hk2 : k2 = new_id
    · rw [if_pos hk2] at hm2
      rcases Option.some.inj hm2 with rfl
      have hnotp : k2 ∉ m1.parents := by
        rw [hk2]
        exact (hfresh _ hm1h).1
      rw [hch]
      simp [hnotp, hk1]
    · rw [if_neg hk2] at hm2
      have hm2h : (k2, m2) ∈ h := dictGet_mem hm2
      have base := hIg k1 k2 m1 m2 hm1 hm2
      simp [hk1, base]

/-- `add_element` preserves the inverse-link invariant whenever the new id
is not referenced by any existing `parents` or `children` list (in
particular on stores free of dangling references). -/
theorem invLink_add_element {h h' : Store} {new_id nm tp df pid : String}
    (hnd : keysNodup h)
    (hfresh : ∀ e ∈ h, new_id ∉ e.2.parents ∧ new_id ∉ e.2.children)
    (ha : add_element h new_id nm tp df pid = some h') (hI : InvLink h) : InvLink h' := by
  unfold add_element at ha
  split at ha
  · exact absurd ha (by simp)
  · rename_i hns
    have hg0 : dictGet h new_id = none := Option.not_isSome_iff_eq_none.mp hns
    simp only [dictInsert_of_fresh hg0] at ha
    by_cases hp : pid ≠ ""
    · simp only [if_pos hp] at ha
      split at ha
      · rename_i p hm
        rcases Option.some.inj ha with rfl
        have hl : linkOne (h ++ [(new_id,
            { name := some nm, type := some tp, definition := some df,
              parents := [pid], children := [] })]) new_id pid =
            dictSet (h ++ [(new_id,
              { name := some nm, type := some tp, definition := some df,
                parents := [pid], children := [] })]) pid
              { p with children := p.children ++ [new_id] } := by
          unfold linkOne
          rw [hm]
        rw [← hl]
        exact invLink_linkOne_append hnd hg0 hfresh rfl rfl hI
      · rename_i hm
        rcases Option.some.inj ha with rfl
        have hl : linkOne (h ++ [(new_id,
            { name := some nm, type := some tp, definition := some df,
              parents := [pid], children := [] })]) new_id pid =
            h ++ [(new_id,
              { name := some nm, type := some tp, definition := some df,
                parents := [pid], children := [] })] := by
          unfold linkOne
          rw [hm]
        rw [← hl]
        exact invLink_linkOne_append hnd hg0 hfresh rfl rfl hI
    · simp only [if_neg hp] at ha
      rcases Option.some.inj ha with rfl
      apply invLink_append_fresh hg0 hfresh rfl _ hI
      intro q hq
      simp [hp] at hq

/-! ## Sibling-query lemmas -/

theorem mem_setInsert (s : List String) (x y : String) :
    y ∈ setInsert s x ↔ y ∈ s ∨ y = x := by
  unfold setInsert
  split
  · rename_i hx
    constructor
    · exact Or.inl
    · intro hy
      rcases hy with hy | hy
      · exact hy
      · exact hy ▸ hx
  · simp

theorem nodup_setInsert {s : List String} (hnd : s.Nodup) (x : String) :
    (setInsert s x).Nodup := by
  unfold setInsert
  split
  · exact hnd
  · rename_i hx
    rw [List.nodup_append]
    exact ⟨hnd, List.nodup_singleton _, by
      intro a ha hb
      simp at hb
      exact hx (hb ▸ ha)⟩

theorem mem_setUpdate (xs : List String) :
    ∀ (s : List String) (y : String), y ∈ setUpdate s xs ↔ y ∈ s ∨ y ∈ xs := by
  induction xs with
  | nil => intro s y; simp [setUpdate]
  | cons x xs' ih =>
    intro s y
    unfold setUpdate at ih ⊢
    rw [List.foldl_cons, ih, mem_setInsert]
    constructor
    · intro hy
      rcases hy with (hy | hy) | hy
      · exact Or.inl hy
      · exact Or.inr (hy ▸ List.mem_cons_self _ _)
      · exact Or.inr (List.mem_cons_of_mem _ hy)
    · intro hy
      rcases hy with hy | hy
      · exact Or.inl (Or.inl hy)
      · rcases List.mem_cons.mp hy with hy | hy
        · exact Or.inl (Or.inr hy)
        · exact Or.inr hy

theorem nodup_setUpdate (xs : List String) :
    ∀ s : List String, s.Nodup → (setUpdate s xs).Nodup := by
  induction xs with
  | nil => intro s h; exact h
  | cons x xs' ih =>
    intro s h
    unfold setUpdate at ih ⊢
    rw [List.foldl_cons]
    exact ih _ (nodup_setInsert h x)

/-- When every scanned parent id resolves, the gathering loop succeeds and
collects exactly the accumulated set plus all their children. -/
theorem gatherSiblings_all_some {h : Store} (ps : List String)
    (hall : ∀ p ∈ ps, (dictGet h p).isSome) :
    ∀ s : List String, s.Nodup →
      ∃ l, gatherSiblings h ps s = some l ∧ l.Nodup ∧
        ∀ x, x ∈ l ↔ x ∈ s ∨ ∃ p ∈ ps, ∃ pn, dictGet h p = some pn ∧ x ∈ pn.children := by
  induction ps with
  | nil =>
    intro s hs
    exact ⟨s, rfl, hs, by simp⟩
  | cons p ps' ih =>
    intro s hs
    have hp : (dictGet h p).isSome := hall p (List.mem_cons_self _ _)
    rcases Option.isSome_iff_exists.mp hp with ⟨pn, hpn⟩
    have hall' : ∀ q ∈ ps', (dictGet h q).isSome := fun q hq =>
      hall q (List.mem_cons_of_mem _ hq)
    rcases ih hall' (setUpdate s pn.children) (nodup_setUpdate _ _ hs) with ⟨l, hl, hlnd, hlmem⟩
    refine ⟨l, ?_, hlnd, ?_⟩
    · unfold gatherSiblings
      rw [hpn]
      exact hl
    · intro x
      rw [hlmem x, mem_setUpdate]
      constructor
      · intro hx
        rcases hx with (hx | hx) | hx
        · exact Or.inl hx
        · exact Or.inr ⟨p, List.mem_cons_self _ _, pn, hpn, hx⟩
        · rcases hx with ⟨q, hq, qn, hqn, hxq⟩
          exact Or.inr ⟨q, List.mem_cons_of_mem _ hq, qn, hqn, hxq⟩
      · intro hx
        rcases hx with hx | ⟨q, hq, qn, hqn, hxq⟩
        · exact Or.inl (Or.inl hx)
        · rcases List.mem_cons.mp hq with hq | hq
          · subst hq
            rw [hpn] at hqn
            rcases Option.some.inj hqn with rfl
            exact Or.inl (Or.inr hxq)
          · exact Or.inr ⟨q, hq, qn, hqn, hxq⟩

/-- If any scanned parent id dangles, the gathering loop raises. -/
theorem gatherSiblings_none {h : Store} {q : String} (ps : List String)
    (hq : q ∈ ps) (hd : dictGet h q = none) :
    ∀ s : List String, gatherSiblings h ps s = none := by
  induction ps with
  | nil => simp at hq
  | cons p ps' ih =>
    intro s
    unfold gatherSiblings
    cases hp : dictGet h p with
    | none => rfl
    | some pn =>
      rcases List.mem_cons.mp hq with hq1 | hq2
      · rw [← hq1, hd] at hp
        exact absurd hp (by simp)
      · exact ih hq2 _

/-! ## Identifier-generator lemmas -/

/-- Python `max(l, key=...)` over a list starting from a seed: the result
element is the seed or a list element, dominates the seed and every list
element, with the first maximum winning. -/
theorem firstMaxBySnd_fold_spec (l : List (String × Nat)) :
    ∀ b : String × Nat, ∃ m : String × Nat,
      l.foldl (fun best x =>
        match best with
        | none => some x
        | some b => if x.2 > b.2 then some x else some b) (some b) = some m ∧
      (m = b ∨ m ∈ l) ∧ b.2 ≤ m.2 ∧ ∀ q ∈ l, q.2 ≤ m.2 := by
  induction l with
  | nil =>
    intro b
    exact ⟨b, rfl, Or.inl rfl, le_refl _, by simp⟩
  | cons x l' ih =>
    intro b
    by_cases hx : x.2 > b.2
    · rcases ih x with ⟨m, hm, hmem, hle, hall⟩
      refine ⟨m, ?_, ?_, ?_, ?_⟩
      · rw [List.foldl_cons]
        simp only [hx, if_pos]
        exact hm
      · rcases hmem with hm1 | hm2
        · exact Or.inr (hm1 ▸ List.mem_cons_self _ _)
        · exact Or.inr (List.mem_cons_of_mem _ hm2)
      · exact le_trans (le_of_lt hx) hle
      · intro q hq
        rcases List.mem_cons.mp hq with hq1 | hq2
        · exact hq1 ▸ hle
        · exact hall q hq2
    · rcases ih b with ⟨m, hm, hmem, hle, hall⟩
      refine ⟨m, ?_, ?_, ?_, ?_⟩
      · rw [List.foldl_cons]
        simp only [hx, if_neg, ite_false]
        exact hm
      · rcases hmem with hm1 | hm2
        · exact Or.inl hm1
        · exact Or.inr (List.mem_cons_of_mem _ hm2)
      · exact hle
      · intro q hq
        rcases List.mem_cons.mp hq with hq1 | hq2
        · exact hq1 ▸ le_trans (le_of_not_lt hx) hle
        · exact hall q hq2

theorem firstMaxBySnd_spec {l : List (String × Nat)} (hne : l ≠ []) :
    ∃ m, firstMaxBySnd l = some m ∧ m ∈ l ∧ ∀ q ∈ l, q.2 ≤ m.2 := by
  cases l with
  | nil => exact absurd rfl hne
  | cons x l' =>
    unfold firstMaxBySnd
    rw [List.foldl_cons]
    rcases firstMaxBySnd_fold_spec l' x with ⟨m, hm, hmem, hle, hall⟩
    refine ⟨m, hm, ?_, ?_⟩
    · rcases hmem with hm1 | hm2
      · exact hm1 ▸ List.mem_cons_self _ _
      · exact List.mem_cons_of_mem _ hm2
    · intro q hq
      rcases List.mem_cons.mp hq with hq1 | hq2
      · exact hq1 ▸ hle
      · exact hall q hq2

/-! ## Exporter lemmas -/

theorem isPre_append (p t : List Char) : isPre p (p ++ t) = true := by
  induction p with
  | nil => rfl
  | cons a as ih => simp [isPre, ih]

theorem isPre_parentColName (i : Nat) :
    isPre PARENT_PRE.data (parentColName i).data = true := by
  have h1 : ("علاقة جزء من كل " : String).data = PARENT_PRE.data ++ [' '] := by decide
  unfold parentColName
  rw [String.data_append, h1, List.append_assoc]
  exact isPre_append _ _

theorem not_isPre_base : ∀ c ∈ BASE_COLS, isPre PARENT_PRE.data c.data = false := by decide

theorem parentColName_not_base (i : Nat) : parentColName i ∉ BASE_COLS := by
  intro hmem
  have htrue := isPre_parentColName i
  rw [not_isPre_base _ hmem] at htrue
  exact absurd htrue (by simp)

theorem export_cols_filter (m : Nat) :
    (((List.range m).map parentColName).filter (fun c => decide (c ∉ BASE_COLS)))
      = (List.range m).map parentColName := by
  apply List.filter_eq_self.mpr
  intro c hc
  rcases List.mem_map.mp hc with ⟨i, _, rfl⟩
  exact decide_eq_true (parentColName_not_base i)

theorem export_to_csv_cols (H : Store) (s : Option Store) :
    (export_to_csv H s).cols
      = BASE_COLS ++ (List.range (sessionMaxParents s)).map parentColName := by
  show BASE_COLS ++ (((List.range (sessionMaxParents s)).map parentColName).filter
      (fun c => decide (c ∉ BASE_COLS))) = _
  rw [export_cols_filter]

theorem export_to_csv_rows (H : Store) (s : Option Store) :
    (export_to_csv H s).rows = H.map (exportRow (sessionMaxParents s)) := rfl

theorem colIdxOf_base (l : List String) :
    colIdxOf (BASE_COLS ++ l) ID_COL = some 0 ∧
    colIdxOf (BASE_COLS ++ l) NAME_COL = some 1 ∧
    colIdxOf (BASE_COLS ++ l) DEF_COL = some 2 ∧
    colIdxOf (BASE_COLS ++ l) TYPE_COL = some 3 := by
  refine ⟨?_, ?_, ?_, ?_⟩ <;>
    simp [BASE_COLS, ID_COL, NAME_COL, DEF_COL, TYPE_COL, colIdxOf]

theorem cellAt_exportRow_base (l : List String) (m : Nat) (e : String × Node) :
    cellAt (BASE_COLS ++ l) (exportRow m e) ID_COL = some e.1 ∧
    cellAt (BASE_COLS ++ l) (exportRow m e) NAME_COL = e.2.name ∧
    cellAt (BASE_COLS ++ l) (exportRow m e) DEF_COL = e.2.definition ∧
    cellAt (BASE_COLS ++ l) (exportRow m e) TYPE_COL = e.2.type := by
  rcases colIdxOf_base l with ⟨h0, h1, h2, h3⟩
  unfold cellAt exportRow
  rw [h0, h1, h2, h3]
  simp

theorem filterMap_get_range {α : Type} (l : List α) (m : Nat) (hlen : l.length ≤ m) :
    (List.range m).filterMap (fun i => l.get? i) = l := by
  suffices h : ∀ k, (List.range k).filterMap (fun i => l.get? i) = l.take k by
    rw [h m, List.take_of_length_le hlen]
  intro k
  induction k with
  | zero => simp
  | succ j ih =>
    have hr : List.range (j + 1) = List.range j ++ [j] := by
      simpa using List.range_succ (n := j)
    rw [hr, List.filterMap_append, ih, List.take_succ]
    have hsingle : List.filterMap (fun i => l.get? i) [j] = l[j]?.toList := by
      rw [List.filterMap_cons, List.filterMap_nil, ← List.get?_eq_getElem?]
      cases l.get? j <;> rfl
    rw [hsingle]

theorem parentsOfRow_exportRow (m : Nat) (e : String × Node)
    (hlen : e.2.parents.length ≤ m) :
    parentsOfRow (BASE_COLS ++ (List.range m).map parentColName) (exportRow m e)
      = e.2.parents := by
  unfold parentsOfRow exportRow
  have hid : isPre PARENT_PRE.data ID_COL.data = false := by decide
  have hnm : isPre PARENT_PRE.data NAME_COL.data = false := by decide
  have hdf : isPre PARENT_PRE.data DEF_COL.data = false := by decide
  have htp : isPre PARENT_PRE.data TYPE_COL.data = false := by decide
  simp only [BASE_COLS, List.cons_append, List.nil_append, List.zip_cons_cons,
    List.filterMap_cons, hid, hnm, hdf, htp, if_false, Bool.false_eq_true]
  rw [List.zip_map', List.filterMap_map]
  have hfun : ((fun p : String × Cell =>
      if isPre PARENT_PRE.data p.1.data then p.2 else none) ∘
        (fun i => (parentColName i, e.2.parents.get? i)))
      = fun i => e.2.parents.get? i := by
    funext i
    simp [Function.comp, isPre_parentColName]
  rw [hfun]
  exact filterMap_get_range _ _ hlen

theorem le_maxParents {s : Store} {e : String × Node} (he : e ∈ s) :
    e.2.parents.length ≤ maxParents s := by
  have hinit : ∀ (l : List (String × Node)) (a : Nat),
      a ≤ l.foldl (fun a e => Nat.max a e.2.parents.length) a := by
    intro l
    induction l with
    | nil => intro a; exact le_refl _
    | cons x l' ih => intro a; exact le_trans (Nat.le_max_left _ _) (ih _)
  unfold maxParents
  suffices hgen : ∀ (l : List (String × Node)) (a : Nat), e ∈ l →
      e.2.parents.length ≤ l.foldl (fun a e => Nat.max a e.2.parents.length) a by
    exact hgen s 0 he
  intro l
  induction l with
  | nil => intro a h; simp at h
  | cons x l' ih =>
    intro a h
    rcases List.mem_cons.mp h with h1 | h2
    · rw [List.foldl_cons]
      exact le_trans (h1 ▸ Nat.le_max_right _ _) (hinit _ _)
    · rw [List.foldl_cons]
      exact ih _ h2

theorem colIdxOf_isSome_of_mem {cols : List String} {c : String} (hc : c ∈ cols) :
    (colIdxOf cols c).isSome := by
  induction cols with
  | nil => simp at hc
  | cons x xs ih =>
    unfold colIdxOf
    by_cases hx : x = c
    · simp [hx]
    · rcases List.mem_cons.mp hc with h1 | h2
      · exact absurd h1.symm hx
      · simp only [if_neg hx]
        rw [Option.isSome_map']
        exact ih h2

theorem rowGetCell_eq_cellAt {cols : List String} {c : String} (hc : c ∈ cols)
    (row : List Cell) (d : Cell) : rowGetCell cols row c d = cellAt cols row c := by
  unfold rowGetCell cellAt
  cases hidx : colIdxOf cols c with
  | some i => rfl
  | none =>
    have := colIdxOf_isSome_of_mem hc
    rw [hidx] at this
    simp at this

/-! ## Relational-parser shape lemmas -/

theorem foldl_dictInsert_fresh (idOf : List Cell → String) (ndOf : List Cell → Node) :
    ∀ (rows : List (List Cell)) (acc : Store), (rows.map idOf).Nodup →
      (∀ r ∈ rows, dictGet acc (idOf r) = none) →
      rows.foldl (fun a r => dictInsert a (idOf r) (ndOf r)) acc
        = acc ++ rows.map (fun r => (idOf r, ndOf r)) := by
  intro rows
  induction rows with
  | nil => intro acc _ _; simp
  | cons r rs ih =>
    intro acc hnd hfresh
    rw [List.foldl_cons, dictInsert_of_fresh (hfresh r (List.mem_cons_self _ _))]
    rw [ih _ ((List.nodup_cons.mp hnd).2) ?_]
    · simp
    · intro r' hr'
      rw [dictGet_append]
      rw [hfresh r' (List.mem_cons_of_mem _ hr')]
      have hne : ¬ (idOf r = idOf r') := by
        intro heq
        exact (List.nodup_cons.mp hnd).1 (heq ▸ List.mem_map.mpr ⟨r', hr', rfl⟩)
      simp [dictGet, hne]

theorem dictGet_map_of_nodup (idOf : List Cell → String) (ndOf : List Cell → Node) :
    ∀ (rows : List (List Cell)), (rows.map idOf).Nodup →
      ∀ r ∈ rows, dictGet (rows.map (fun r => (idOf r, ndOf r))) (idOf r)
        = some (ndOf r) := by
  intro rows
  induction rows with
  | nil => intro _ r hr; simp at hr
  | cons r0 rs ih =>
    intro hnd r hr
    rcases List.mem_cons.mp hr with h1 | h2
    · subst h1
      simp [dictGet]
    · by_cases hne : idOf r0 = idOf r
      · exact absurd (hne ▸ List.mem_map.mpr ⟨r, h2, rfl⟩) (List.nodup_cons.mp hnd).1
      · simp only [List.map_cons, dictGet, if_neg hne]
        exact ih (List.nodup_cons.mp hnd).2 r h2

theorem dictGet_linkChildren_proj {h : Store} {k : String} {n : Node}
    (hg : dictGet h k = some n) :
    ∃ ext, dictGet (linkChildren h) k = some { n with children := n.children ++ ext } := by
  rcases dictGet_linkEntries h h k with ⟨ext, hget, _, _⟩
  refine ⟨ext, ?_⟩
  unfold linkChildren
  rw [hget, hg]
  rfl

/-! ## Claim theorems -/

/-- Claim C10: for every store, `add_element` called with an id already
present leaves the store unchanged — the duplicate-id branch warns and
returns before any write, modelled as the `none` result — and reports
failure to the caller. -/
theorem C10_add_element_duplicate_id (h : Store) (new_id nm tp df pid : String)
    (hdup : (dictGet h new_id).isSome) :
    add_element h new_id nm tp df pid = none := by
  unfold add_element
  rw [if_pos hdup]

/-- Store for the C10 witness. -/
def C10store : Store := [("a-1", ⟨some "n", some "t", none, [], []⟩)]

/-- Claim C10 witness: adding id `"a-1"` to a store that already contains
it is rejected without mutation. -/
theorem C10_add_element_duplicate_id_witness :
    (dictGet C10store "a-1").isSome ∧
    add_element C10store "a-1" "x" "t" "" "" = none :=
  ⟨by decide, C10_add_element_duplicate_id C10store "a-1" "x" "t" "" "" (by decide)⟩

/-- Store with ids `a-3`, `b-7`, `a-10` from the spec's C8 example. -/
def C8store : Store :=
  [("a-3", ⟨some "n1", some "t", none, [], []⟩),
   ("b-7", ⟨some "n2", some "t", none, [], []⟩),
   ("a-10", ⟨some "n3", some "t", none, [], []⟩)]

/-- Claim C8: `generate_next_id` returns `prefix-(max+1)` where `max` is
the maximal numeric value captured over all ids matching the
`letters-digits` pattern and the prefix is taken from an id attaining that
maximum; on `{a-3, b-7, a-10}` it returns `"a-11"`, and when no id matches
(e.g. the empty store) it returns `"z-1"`. -/
theorem C8_generate_next_id :
    (∀ h : Store,
      (matchedIds h = [] → generate_next_id h = "z-1") ∧
      (matchedIds h ≠ [] → ∃ pn ∈ matchedIds h,
        (∀ qm ∈ matchedIds h, qm.2 ≤ pn.2) ∧
        generate_next_id h = pn.1 ++ "-" ++ toString (pn.2 + 1))) ∧
    generate_next_id C8store = "a-11" ∧
    generate_next_id ([] : Store) = "z-1" := by
  refine ⟨?_, by decide, by decide⟩
  intro h
  constructor
  · intro hempty
    unfold generate_next_id
    rw [hempty]
    rfl
  · intro hne
    rcases firstMaxBySnd_spec hne with ⟨m, hm, hmem, hall⟩
    rcases m with ⟨p, n⟩
    refine ⟨(p, n), hmem, hall, ?_⟩
    unfold generate_next_id
    rw [hm]

/-- Claim C8 witness: the general clause applied to the concrete store. -/
theorem C8_generate_next_id_witness :
    matchedIds C8store ≠ [] ∧
    ∃ pn ∈ matchedIds C8store,
      (∀ qm ∈ matchedIds C8store, qm.2 ≤ pn.2) ∧
      generate_next_id C8store = pn.1 ++ "-" ++ toString (pn.2 + 1) :=
  ⟨by decide, (C8_generate_next_id.1 C8store).2 (by decide)⟩

/-- Claim C9: for a node present in the store all of whose parents
resolve, `get_siblings` returns the duplicate-free set-union of the
parents' `children` lists minus the node's own id. -/
theorem C9_get_siblings (h : Store) (eid : String) (el : Node)
    (hel : dictGet h eid = some el)
    (hall : ∀ p ∈ el.parents, (dictGet h p).isSome) :
    ∃ l, get_siblings h eid = some l ∧ l.Nodup ∧
      ∀ x, x ∈ l ↔
        (x ≠ eid ∧ ∃ p ∈ el.parents, ∃ pn, dictGet h p = some pn ∧ x ∈ pn.children) := by
  rcases gatherSiblings_all_some el.parents hall [] List.nodup_nil with ⟨l0, hl0, hnd0, hmem0⟩
  refine ⟨l0.filter (fun x => x ≠ eid), ?_, hnd0.filter _, ?_⟩
  · unfold get_siblings
    rw [hel]
    show (match gatherSiblings h el.parents [] with
      | none => none
      | some s => some (s.filter (fun x => x ≠ eid))) = _
    rw [hl0]
  · intro x
    constructor
    · intro hx
      rcases List.mem_filter.mp hx with ⟨hxl, hxd⟩
      refine ⟨by simpa using hxd, ?_⟩
      rcases (hmem0 x).mp hxl with hx0 | hx1
      · simp at hx0
      · exact hx1
    · rintro ⟨hxne, hex⟩
      exact List.mem_filter.mpr ⟨(hmem0 x).mpr (Or.inr hex), by simpa using hxne⟩

/-- Store for the C9 witness: node `s` with two parents sharing some
children. -/
def C9store : Store :=
  [("P1", ⟨some "p1", some "t", none, [], ["s", "a", "b"]⟩),
   ("P2", ⟨some "p2", some "t", none, [], ["s", "b", "c"]⟩),
   ("s", ⟨some "ns", some "t", none, ["P1", "P2"], []⟩)]

/-- The node record of `s` in `C9store`. -/
def C9node : Node := ⟨some "ns", some "t", none, ["P1", "P2"], []⟩

/-- Claim C9 witness: the theorem applied to the two-parent store. -/
theorem C9_get_siblings_witness :
    dictGet C9store "s" = some C9node ∧
    (∀ p ∈ C9node.parents, (dictGet C9store p).isSome) ∧
    ∃ l, get_siblings C9store "s" = some l ∧ l.Nodup ∧
      ∀ x, x ∈ l ↔
        (x ≠ "s" ∧ ∃ p ∈ C9node.parents, ∃ pn, dictGet C9store p = some pn ∧ x ∈ pn.children) :=
  ⟨by decide, by decide, C9_get_siblings C9store "s" C9node (by decide) (by decide)⟩

/-- Store for C4: node `a` lists a parent id absent from the store. -/
def C4store : Store := [("a", ⟨some "na", some "t", none, ["ghost"], []⟩)]

/-- Claim C4 counterexample: `get_siblings` does NOT skip a dangling
parent reference — the unguarded `hierarchy[parent_id]` raises `KeyError`
(the `none` result), where the claim demands the siblings computed from
the remaining parents (here `some []`). -/
theorem C4_dangling_parent_cex :
    dictGet C4store "a" = some ⟨some "na", some "t", none, ["ghost"], []⟩ ∧
    dictGet C4store "ghost" = none ∧
    get_siblings C4store "a" = none := by decide

/-- Claim C4 (amended): `get_siblings` on a node present in the store
faults (raises `KeyError`, the `none` result) whenever any entry of the
node's `parents` list references an id absent from the store. -/
theorem C4_dangling_parent_faults (h : Store) (eid : String) (el : Node) (q : String)
    (hel : dictGet h eid = some el) (hq : q ∈ el.parents)
    (hd : dictGet h q = none) : get_siblings h eid = none := by
  unfold get_siblings
  rw [hel]
  show (match gatherSiblings h el.parents [] with
    | none => none
    | some s => some (s.filter (fun x => x ≠ eid))) = none
  rw [gatherSiblings_none el.parents hq hd []]

/-- Claim C4 witness: the amended theorem applied to `C4store`. -/
theorem C4_dangling_parent_faults_witness :
    dictGet C4store "a" = some ⟨some "na", some "t", none, ["ghost"], []⟩ ∧
    "ghost" ∈ (⟨some "na", some "t", none, ["ghost"], []⟩ : Node).parents ∧
    dictGet C4store "ghost" = none ∧
    get_siblings C4store "a" = none :=
  ⟨by decide, by decide, by decide,
    C4_dangling_parent_faults C4store "a" ⟨some "na", some "t", none, ["ghost"], []⟩
      "ghost" (by decide) (by decide) (by decide)⟩

/-- The 2-row, 3-column outline table of claim C7. -/
def C7table : List (List Cell) :=
  [[some "A", some "B", some "C"], [some "", some "B2", some "C2"]]

/-- Claim C7: parsing the outline table `[["A","B","C"], ["","B2","C2"]]`
yields node `N4` (the node named `B2`) whose sole parent is `N1` (the node
named `A`): row 2's column-0 cell is empty, so the nearest populated
shallower column is column 0 whose last-seen node is `A` from row 1. -/
theorem C7_outline_parent_carryover :
    ((dictGet (build_hierarchy_from_outline C7table) "N4").map
      (fun n => (n.name, n.parents))) = some (some "B2", ["N1"]) ∧
    ((dictGet (build_hierarchy_from_outline C7table) "N1").map
      (fun n => n.name)) = some (some "A") := by
  constructor <;> rfl

/-- Store for C1: chain `r → a → b`, so node `a` has the child `b`. -/
def C1store : Store :=
  [("r", ⟨some "nr", some "t", none, [], ["a"]⟩),
   ("a", ⟨some "na", some "t", none, ["r"], ["b"]⟩),
   ("b", ⟨some "nb", some "t", none, ["a"], []⟩)]

/-- Claim C1 (code bug): deleting node `a`, which has the child `b`, is
NOT rejected and does NOT leave the store unchanged.  The guard
`any(el.get("parent") == current_id ...)` tests a `"parent"` key that no
node record ever has, so `has_children` is `False` even here and the
handler deletes `a` (orphaning `b`), returning focus `r`. -/
theorem C1_delete_with_children_proceeds :
    dictGet C1store "a" = some ⟨some "na", some "t", none, ["r"], ["b"]⟩ ∧
    ("b" ∈ (⟨some "na", some "t", none, ["r"], ["b"]⟩ : Node).children) ∧
    has_children C1store "a" = false ∧
    deleteNode C1store "a" =
      DelResult.ok
        [("r", ⟨some "nr", some "t", none, [], []⟩),
         ("b", ⟨some "nb", some "t", none, ["a"], []⟩)] "r" := by decide

/-- Store for the C2 counterexample: a single childless root. -/
def C2root : Store := [("r", ⟨some "nr", some "t", none, [], []⟩)]

/-- Claim C2 counterexample: deleting a childless root does not succeed
with a null focus as claimed — the handler reads `parents[0]` on the empty
list and raises `IndexError` (`faulted`), leaving the store untouched. -/
theorem C2_root_delete_faults :
    dictGet C2root "r" = some ⟨some "nr", some "t", none, [], []⟩ ∧
    (⟨some "nr", some "t", none, [], []⟩ : Node).children = [] ∧
    deleteNode C2root "r" = DelResult.faulted := by decide

/-- Claim C2 (amended): for a childless node present in a store with
distinct keys, delete removes the node, erases its id from its *first*
parent's `children` when that parent resolves, leaves every other entry
intact and returns the first parent id as the new focus; on a root
(no parents) the handler faults with `IndexError` instead of returning a
null focus. -/
theorem C2_delete_childless (h : Store) (cid : String) (node : Node)
    (hnd : keysNodup h) (hg : dictGet h cid = some node)
    (_hch : node.children = []) :
    (node.parents = [] → deleteNode h cid = DelResult.faulted) ∧
    (∀ p ps, node.parents = p :: ps →
      ∃ h', deleteNode h cid = DelResult.ok h' p ∧
        dictGet h' cid = none ∧
        (∀ q qn, q ≠ cid → dictGet h q = some qn →
          dictGet h' q = some { qn with children :=
            if q = p then qn.children.erase cid else qn.children }) ∧
        (∀ q, dictGet h q = none → dictGet h' q = none)) := by
  constructor
  · intro hps
    simp only [deleteNode, has_children_false, Bool.false_eq_true, if_false, hg, hps]
  · intro p ps hps
    cases hgp : dictGet h p with
    | some pp =>
      refine ⟨dictErase (dictSet h p { pp with children := pp.children.erase cid }) cid,
        ?_, ?_, ?_, ?_⟩
      · simp only [deleteNode, has_children_false, Bool.false_eq_true, if_false, hg, hps, hgp]
      · exact dictGet_dictErase_self (keysNodup_dictSet hnd _ _)
      · intro q qn hqne hq
        rw [dictGet_dictErase_ne hqne, dictGet_dictSet, hq]
        by_cases hqp : q = p
        · have hqn : qn = pp := by
            rw [hqp, hgp] at hq
            exact (Option.some.inj hq).symm
          rw [if_pos hqp, hqn]
          simp [hqp]
        · rw [if_neg hqp]
          simp [hqp]
      · intro q hq
        by_cases hqc : q = cid
        · rw [hqc]
          exact dictGet_dictErase_self (keysNodup_dictSet hnd _ _)
        · rw [dictGet_dictErase_ne hqc, dictGet_dictSet, hq]
          rfl
    | none =>
      refine ⟨dictErase h cid, ?_, ?_, ?_, ?_⟩
      · simp only [deleteNode, has_children_false, Bool.false_eq_true, if_false, hg, hps, hgp]
      · exact dictGet_dictErase_self hnd
      · intro q qn hqne hq
        rw [dictGet_dictErase_ne hqne, hq]
        have hqp : q ≠ p := by
          intro hh
          rw [hh, hgp] at hq
          exact absurd hq (by simp)
        simp [hqp]
      · intro q hq
        by_cases hqc : q = cid
        · rw [hqc]
          exact dictGet_dictErase_self hnd
        · rw [dictGet_dictErase_ne hqc, hq]

/-- Store for the C2 witness: parent `p0` with childless child `c0`. -/
def C2wstore : Store :=
  [("p0", ⟨some "np", some "t", none, [], ["c0"]⟩),
   ("c0", ⟨some "nc", some "t", none, ["p0"], []⟩)]

/-- Claim C2 witness: deleting `c0` succeeds, removes it, and focuses its
parent `p0`. -/
theorem C2_delete_childless_witness :
    ∃ h', deleteNode C2wstore "c0" = DelResult.ok h' "p0" ∧
      dictGet h' "c0" = none := by
  rcases (C2_delete_childless C2wstore "c0" ⟨some "nc", some "t", none, ["p0"], []⟩
      (by decide) (by decide) (by decide)).2 "p0" [] rfl with ⟨h', hok, hnone, _, _⟩
  exact ⟨h', hok, hnone⟩

/-- Store for C5: one node with one parent reference. -/
def C5store : Store := [("x", ⟨some "nx", some "t", none, ["p"], []⟩)]

/-- Claim C5 (code bug): `export_to_csv` derives `max_parents` from the
ambient `st.session_state["hierarchy"]`, not from the passed store.
Exporting `C5store` while the session holds an empty store yields no
parent-reference column at all — node `x`'s parent `p` is silently
dropped — whereas the same call with the session holding the passed store
yields the correct single parent column.  The result therefore does not
depend only on the passed store. -/
theorem C5_export_reads_session_state :
    (export_to_csv C5store (some C5store)).cols
      = BASE_COLS ++ ["علاقة جزء من كل 1"] ∧
    (export_to_csv C5store (some C5store)).rows
      = [[some "x", some "nx", none, some "t", some "p"]] ∧
    (export_to_csv C5store (some ([] : Store))).cols = BASE_COLS ∧
    (export_to_csv C5store (some ([] : Store))).rows
      = [[some "x", some "nx", none, some "t"]] ∧
    export_to_csv C5store (some ([] : Store)) ≠ export_to_csv C5store (some C5store) := by
  decide

/-- Store for the C3 counterexample: `q` lists the dangling child `x`. -/
def C3qstore : Store := [("q", ⟨some "nq", some "t", none, [], ["x"]⟩)]

/-- The store after adding node `x` to `C3qstore` with no parent. -/
def C3qstoreAfter : Store :=
  [("q", ⟨some "nq", some "t", none, [], ["x"]⟩),
   ("x", ⟨some "nx", some "t", some "", [], []⟩)]

/-- Claim C3 counterexample: `add_element` does NOT always preserve the
inverse-link invariant.  `C3qstore` satisfies it (the dangling child
reference `x` is not a present pair), but adding a node with id `x` and no
parent produces a store where `x ∈ q.children` while `q ∉ x.parents`. -/
theorem C3_add_element_breaks_invariant :
    InvLink C3qstore ∧
    add_element C3qstore "x" "nx" "t" "" "" = some C3qstoreAfter ∧
    ¬ InvLink C3qstoreAfter := by decide

/-- Claim C3 (amended): the edit and delete handlers preserve the
inverse-link invariant on stores with distinct keys, both parsers
establish it outright, and `add_element` preserves it provided the new id
is not referenced by any existing `parents` or `children` list (as on
stores free of dangling references). -/
theorem C3_invariant_maintenance :
    (∀ (h h' : Store) (cid nn nd : String), keysNodup h →
      editNode h cid nn nd = some h' → InvLink h → InvLink h') ∧
    (∀ (h h' : Store) (cid f : String), keysNodup h →
      deleteNode h cid = DelResult.ok h' f → InvLink h → InvLink h') ∧
    (∀ (h h' : Store) (new_id nm tp df pid : String), keysNodup h →
      (∀ e ∈ h, new_id ∉ e.2.parents ∧ new_id ∉ e.2.children) →
      add_element h new_id nm tp df pid = some h' → InvLink h → InvLink h') ∧
    (∀ (T : RelTable) (H : Store), build_hierarchy T = some H → InvLink H) ∧
    (∀ rows : List (List Cell), InvLink (build_hierarchy_from_outline rows)) :=
  ⟨fun _ _ _ _ _ hnd he hI => invLink_editNode hnd he hI,
   fun _ _ _ _ hnd hd hI => invLink_deleteNode hnd hd hI,
   fun _ _ _ _ _ _ _ hnd hf ha hI => invLink_add_element hnd hf ha hI,
   fun _ _ hb => invLink_build_hierarchy hb,
   invLink_build_hierarchy_from_outline⟩

/-- Store for the C3 witness: a clean two-node store. -/
def C3editstore : Store :=
  [("p", ⟨some "np", some "t", none, [], ["c"]⟩),
   ("c", ⟨some "nc", some "مدخل", some "", ["p"], []⟩)]

/-- The store after editing node `c`. -/
def C3edited : Store :=
  [("p", ⟨some "np", some "t", none, [], ["c"]⟩),
   ("c", ⟨some "nc2", some "مدخل", some "d2", ["p"], []⟩)]

/-- Claim C3 witness: the amended theorem applied to a concrete edit, a
concrete add and the outline parse of the C7 table. -/
theorem C3_invariant_maintenance_witness :
    keysNodup C3editstore ∧ InvLink C3editstore ∧
    editNode C3editstore "c" "nc2" "d2" = some C3edited ∧
    InvLink C3edited ∧
    InvLink (build_hierarchy_from_outline C7table) :=
  ⟨by decide, by decide, by decide,
   C3_invariant_maintenance.1 C3editstore C3edited "c" "nc2" "d2"
     (by decide) (by decide) (by decide),
   C3_invariant_maintenance.2.2.2.2 C7table⟩

/-- Claim C6: exporting the store built from a well-formed relational
table (expected columns present, distinct identifiers) reproduces, for
every input row, an output row with the same identifier, name, type and
definition cells and the same parent-reference list, column order and
empty-cell padding aside. -/
theorem C6_export_roundtrip (T : RelTable) (H : Store)
    (hb : build_hierarchy T = some H)
    (hdef : DEF_COL ∈ T.cols)
    (hids : (T.rows.map (fun r => strCell (cellAt T.cols r ID_COL))).Nodup) :
    ∀ r ∈ T.rows, ∃ r' ∈ (export_to_csv H (some H)).rows,
      cellAt (export_to_csv H (some H)).cols r' ID_COL
        = some (strCell (cellAt T.cols r ID_COL)) ∧
      cellAt (export_to_csv H (some H)).cols r' NAME_COL = cellAt T.cols r NAME_COL ∧
      cellAt (export_to_csv H (some H)).cols r' TYPE_COL = cellAt T.cols r TYPE_COL ∧
      cellAt (export_to_csv H (some H)).cols r' DEF_COL = cellAt T.cols r DEF_COL ∧
      parentsOfRow (export_to_csv H (some H)).cols r' = parentsOfRow T.cols r := by
  unfold build_hierarchy at hb
  split at hb
  · rename_i hemp
    rcases Option.some.inj hb with rfl
    intro r hr
    rw [List.isEmpty_iff.mp hemp] at hr
    simp at hr
  · split at hb
    · rcases Option.some.inj hb with rfl
      intro r hr
      have hfp : firstPass T = T.rows.map
          (fun r => (strCell (cellAt T.cols r ID_COL), nodeOfRow T.cols r)) := by
        unfold firstPass
        rw [foldl_dictInsert_fresh _ _ T.rows [] hids (fun _ _ => rfl)]
        simp
      have hget1 : dictGet (firstPass T) (strCell (cellAt T.cols r ID_COL))
          = some (nodeOfRow T.cols r) := by
        rw [hfp]
        exact dictGet_map_of_nodup _ _ T.rows hids r hr
      rcases dictGet_linkChildren_proj hget1 with ⟨ext, hget2⟩
      have hmem : (strCell (cellAt T.cols r ID_COL),
          { nodeOfRow T.cols r with
            children := (nodeOfRow T.cols r).children ++ ext })
          ∈ linkChildren (firstPass T) := dictGet_mem hget2
      refine ⟨exportRow (sessionMaxParents (some (linkChildren (firstPass T))))
        (strCell (cellAt T.cols r ID_COL),
          { nodeOfRow T.cols r with
            children := (nodeOfRow T.cols r).children ++ ext }), ?_, ?_, ?_, ?_, ?_, ?_⟩
      · rw [export_to_csv_rows]
        exact List.mem_map_of_mem _ hmem
      · rw [export_to_csv_cols]
        exact (cellAt_exportRow_base _ _ _).1
      · rw [export_to_csv_cols]
        exact (cellAt_exportRow_base _ _ _).2.1
      · rw [export_to_csv_cols]
        exact (cellAt_exportRow_base _ _ _).2.2.2
      · rw [export_to_csv_cols]
        rw [(cellAt_exportRow_base _ _ _).2.2.1]
        exact rowGetCell_eq_cellAt hdef r (some "")
      · rw [export_to_csv_cols]
        exact parentsOfRow_exportRow _ _ (le_maxParents hmem)
    · exact absurd hb (by simp)

/-- A well-formed two-row relational table for the C6 witness. -/
def C6table : RelTable :=
  { cols := [ID_COL, NAME_COL, TYPE_COL, DEF_COL, parentColName 0],
    rows := [[some "a", some "nA", some "tA", some "dA", none],
             [some "b", some "nB", some "tB", none, some "a"]] }

/-- The store `build_hierarchy` produces from `C6table`. -/
def C6H : Store :=
  [("a", ⟨some "nA", some "tA", some "dA", [], ["b"]⟩),
   ("b", ⟨some "nB", some "tB", none, ["a"], []⟩)]

/-- Claim C6 witness: the round-trip theorem applied to `C6table` at its
second row (the row with a parent reference). -/
theorem C6_export_roundtrip_witness :
    build_hierarchy C6table = some C6H ∧
    DEF_COL ∈ C6table.cols ∧
    (C6table.rows.map (fun r => strCell (cellAt C6table.cols r ID_COL))).Nodup ∧
    ∃ r' ∈ (export_to_csv C6H (some C6H)).rows,
      cellAt (export_to_csv C6H (some C6H)).cols r' ID_COL
        = some (strCell (cellAt C6table.cols
            [some "b", some "nB", some "tB", none, some "a"] ID_COL)) ∧
      cellAt (export_to_csv C6H (some C6H)).cols r' NAME_COL
        = cellAt C6table.cols [some "b", some "nB", some "tB", none, some "a"] NAME_COL ∧
      cellAt (export_to_csv C6H (some C6H)).cols r' TYPE_COL
        = cellAt C6table.cols [some "b", some "nB", some "tB", none, some "a"] TYPE_COL ∧
      cellAt (export_to_csv C6H (some C6H)).cols r' DEF_COL
        = cellAt C6table.cols [some "b", some "nB", some "tB", none, some "a"] DEF_COL ∧
      parentsOfRow (export_to_csv C6H (some C6H)).cols r'
        = parentsOfRow C6table.cols [some "b", some "nB", some "tB", none, some "a"] :=
  ⟨by decide, by decide, by decide,
    C6_export_roundtrip C6table C6H (by decide) (by decide) (by decide)
      [some "b", some "nB", some "tB", none, some "a"] (by decide)⟩

end LexiBuild
